import Mathlib

/-!
Verification of the chainlink run-engine specification against the sources.

Sections:
* decimal arithmetic and the fluxmonitor trigger functions
  (src/core/store/models/triggerfns/trigger_fns.go);
* Go-slice semantics for the value-receiver `TriggerFns.Scan`;
* the explorer client's `searchQuery` helper (src/unnamed/part_000);
* the Run Execution Engine components that the spec describes but whose
  sources are not in the sampled tree (Job Run State Machine, Transaction
  Confirmation Coordinator, Head Tracker); those are modelled from the spec,
  as marked in each doc comment.

Decimal values (shopspring/decimal) are modelled as the rationals they
denote; `Decimal.Div` rounds to `DivisionPrecision = 16` decimal places,
which `decimalDiv` reproduces.
-/

namespace Chainlink

/-! ### shopspring decimal arithmetic, as used by trigger_fns.go -/

/-- shopspring decimal `DivisionPrecision` (default 16): `Div` rounds its
result to this many decimal places. -/
def divisionPrecision : ℕ := 16

/-- Round a rational to the nearest integer, ties away from zero: the
rounding used by shopspring `DivRound` (digit 5 rounds away from zero). -/
def roundHalfAway (q : ℚ) : ℤ :=
  if q < 0 then -⌊-q + 1 / 2⌋ else ⌊q + 1 / 2⌋

/-- shopspring decimal division `a.Div(b)`: the exact quotient rounded to
`divisionPrecision` decimal places, half away from zero. -/
def decimalDiv (a b : ℚ) : ℚ :=
  (roundHalfAway (a / b * 10 ^ divisionPrecision) : ℚ) / 10 ^ divisionPrecision

/-! ### Trigger functions (src/core/store/models/triggerfns/trigger_fns.go) -/

/-- A factory parameter: the Go interface argument taken from the JSON job
spec, either a float64 (modelled by the rational it denotes) or any other
value. -/
inductive Param where
  | float (x : ℚ)
  | other
deriving DecidableEq

/-- The triggering closure built by `relativeThresholdFactory`
(trigger_fns.go lines 125-136): under the guard `current.Sign() != 0` it
returns `!current.Sub(new).Div(current).Abs().LessThan(dthreshold)`, and for
`current == 0` it returns `new.Sign() != 0`; the error result is always nil
(`none`). -/
def relativeTriggering (dthreshold current new : ℚ) : Bool × Option String :=
  if current ≠ 0 then
    (!decide (|decimalDiv (current - new) current| < dthreshold), none)
  else
    (decide (new ≠ 0), none)

/-- The triggering closure built by `absoluteThresholdFactory`
(trigger_fns.go lines 148-152): `!current.Sub(new).Abs().LessThan(dthreshold)`
with a nil error. -/
def absoluteTriggering (dthreshold current new : ℚ) : Bool × Option String :=
  (!decide (|current - new| < dthreshold), none)

/-- The `TriggerFn` interface as implemented by `floatTriggerFn`
(trigger_fns.go lines 105-119): a triggering closure, the factory name, and
the float parameter it was built from. -/
structure TriggerFn where
  triggering : ℚ → ℚ → Bool × Option String
  factory : String
  parameters : ℚ

/-- `relativeThresholdFactory` (trigger_fns.go lines 121-142): a float
parameter produces a `floatTriggerFn` over `relativeTriggering`, anything
else is an error. -/
def relativeThresholdFactory (params : Param) : Except String TriggerFn :=
  match params with
  | .float threshold =>
      .ok ⟨relativeTriggering threshold, "relativeThreshold", threshold⟩
  | .other => .error ("expected float parameter")

/-- `absoluteThresholdFactory` (trigger_fns.go lines 144-158). -/
def absoluteThresholdFactory (params : Param) : Except String TriggerFn :=
  match params with
  | .float threshold =>
      .ok ⟨absoluteTriggering threshold, "absoluteThreshold", threshold⟩
  | .other => .error ("expected float parametr")

/-- `triggerFnFactories` (trigger_fns.go lines 18-23): the registry mapping
trigger-function names to factories, as an association list. -/
def triggerFnFactories : List (String × (Param → Except String TriggerFn)) :=
  [("relativeThreshold", relativeThresholdFactory),
   ("absoluteThreshold", absoluteThresholdFactory)]

/-- `makeTriggerFn` (trigger_fns.go lines 64-79). The Go function is
malformed (the unknown-name branch returns a single value where the pair
`(TriggerFn, error)` is required, it tests an undeclared `err`, and the
success path falls off the end without returning); this definition follows
its evident intent: an unknown name yields an error and no trigger function,
a known name defers to the registered factory. -/
def makeTriggerFn (name : String) (params : Param) : Except String TriggerFn :=
  match triggerFnFactories.find? (fun e => e.1 == name) with
  | none => .error ("trigger function " ++ name ++ " uknown")
  | some e => e.2 params

/-! ### Go slice semantics for the value receiver of `TriggerFns.Scan` -/

/-- A Go slice header: a backing array (the contents visible through the
header's capacity) and the header's length. -/
structure GoSlice (α : Type) where
  backing : List α
  len : ℕ

/-- The elements a holder of this slice header observes. -/
def GoSlice.view {α : Type} (s : GoSlice α) : List α :=
  s.backing.take s.len

/-- Go `append` on a slice: with spare capacity it writes in place at index
`len`, otherwise it copies the visible elements and adds the new one. -/
def GoSlice.push {α : Type} (s : GoSlice α) (x : α) : GoSlice α :=
  if s.len < s.backing.length then
    ⟨s.backing.set s.len x, s.len + 1⟩
  else
    ⟨s.backing.take s.len ++ [x], s.len + 1⟩

/-- The scanned database value handed to `TriggerFns.Scan`: a JSON object
(an association of trigger-function names to parameters), some other valid
JSON, or an unparseable value. -/
inductive JSONValue where
  | object (entries : List (String × Param))
  | nonObjectJSON
  | invalid

/-- `getTriggerFnMap` (trigger_fns.go lines 46-62): parse the value as JSON,
insist on an object, and return it as a map. -/
def getTriggerFnMap : JSONValue → Except String (List (String × Param))
  | .object entries => .ok entries
  | .nonObjectJSON => .error ("trigger-function map should be a JSON object")
  | .invalid => .error ("while trying to parse value as trigger-function map")

/-- One iteration of the loop in `TriggerFns.Scan` (trigger_fns.go lines
86-89): build the trigger function and append it to the local slice; the
error from `makeTriggerFn` is ignored, so a failed build appends the nil
interface value (`Option.none`). -/
def scanStep (acc : GoSlice (Option TriggerFn)) (entry : String × Param) :
    GoSlice (Option TriggerFn) :=
  acc.push (makeTriggerFn entry.1 entry.2).toOption

/-- `TriggerFns.Scan` (trigger_fns.go lines 81-91). The receiver `f` is a
slice passed by value: the appends inside the method act on the method's
copy of the header, while the caller keeps a header with the original
length over the (possibly in-place updated) backing array. The returned
slice is the caller's post-call view. -/
def TriggerFnsScan (f : GoSlice (Option TriggerFn)) (value : JSONValue) :
    Option String × GoSlice (Option TriggerFn) :=
  match getTriggerFnMap value with
  | .error e => (some e, f)
  | .ok entries =>
      let final := entries.foldl scanStep f
      (none, ⟨final.backing, f.len⟩)

/-! ### The explorer client's `searchQuery` (src/unnamed/part_000) -/

/-- A browser location, reduced to the query parameters of its URL. -/
structure Location where
  searchParams : List (String × String)

/-- `URLSearchParams.get`: the value of the first parameter with the given
name, or null (`none`) when absent. -/
def searchParamsGet (ps : List (String × String)) (name : String) :
    Option String :=
  (ps.find? (fun p => p.1 == name)).map Prod.snd

/-- `searchQuery` (src/unnamed/part_000 lines 9-18): return the `search`
query parameter when it is truthy (a non-empty string), else `undefined`
(`none`). -/
def searchQuery (location : Location) : Option String :=
  match searchParamsGet location.searchParams ("search") with
  | some search => if search ≠ "" then some search else none
  | none => none

/-! ### Job Run State Machine (spec section 4.2; sources not in the tree) -/

/-- Run lifecycle states (spec section 3). -/
inductive RunStatus where
  | Unstarted | InProgress | PendingConfirmation | Completed | Errored | Cancelled
deriving DecidableEq

/-- Modelled from the spec: a persisted Run (spec section 3), reduced to the
fields `createRun` touches; the idempotency key is the uniqueness constraint
of the persistent store. -/
structure Run where
  id : ℕ
  jobId : ℕ
  idempotencyKey : String
  triggerPayload : String
  status : RunStatus
deriving DecidableEq

/-- Modelled from the spec: `createRun` of the Job Run State Machine (spec
section 4.2), whose source is not in the sampled tree. The persistent store
is the list of persisted Runs; the idempotency key acts as a uniqueness
constraint, and a duplicate create returns the existing Run unchanged. -/
def createRun (store : List Run) (jobId : ℕ) (triggerPayload : String)
    (idempotencyKey : String) : Run × List Run :=
  match store.find? (fun r => r.idempotencyKey == idempotencyKey) with
  | some existing => (existing, store)
  | none =>
      (⟨store.length, jobId, idempotencyKey, triggerPayload,
         RunStatus.Unstarted⟩,
       store ++ [⟨store.length, jobId, idempotencyKey, triggerPayload,
         RunStatus.Unstarted⟩])

/-! ### Transaction Confirmation Coordinator (spec section 4.4; sources not
in the tree) -/

/-- PendingTransaction states (spec section 3). -/
inductive TxStatus where
  | Submitted | Confirmed | Invalidated | Fatal
deriving DecidableEq

/-- Modelled from the spec: a head delivered as a `HeadConfirmed` event,
carrying its block number and the hashes of the heads it descends from. -/
structure ObservedHead where
  number : ℕ
  ancestorHashes : List ℕ
deriving DecidableEq

/-- Modelled from the spec: a PendingTransaction (spec section 3), reduced
to the fields confirmation tracking touches: the hash of its inclusion head,
the head number it was submitted at, the required confirmation depth and the
status. -/
structure PendingTransaction where
  inclusionHash : ℕ
  submittedAtNumber : ℕ
  requiredConfirmations : ℕ
  status : TxStatus
deriving DecidableEq

/-- Modelled from the spec: the Coordinator's reaction to one `HeadConfirmed`
event (spec section 4.4), whose source is not in the sampled tree: a
`Submitted` transaction becomes `Confirmed` once a head descending from its
inclusion head reaches the required confirmation depth. -/
def onHeadEvent (tx : PendingTransaction) (h : ObservedHead) :
    PendingTransaction :=
  if tx.status = TxStatus.Submitted ∧ tx.inclusionHash ∈ h.ancestorHashes ∧
      tx.submittedAtNumber + tx.requiredConfirmations ≤ h.number then
    ⟨tx.inclusionHash, tx.submittedAtNumber, tx.requiredConfirmations,
      TxStatus.Confirmed⟩
  else tx

/-- Feed a sequence of `HeadConfirmed` events to the Coordinator, in chain
order (spec section 5). -/
def processHeads (tx : PendingTransaction) (heads : List ObservedHead) :
    PendingTransaction :=
  heads.foldl onHeadEvent tx

/-! ### Head Tracker (spec section 4.1; sources not in the tree) -/

/-- A block header (spec section 3). -/
structure Head where
  hash : ℕ
  parentHash : ℕ
  number : ℕ
  timestamp : ℕ
deriving DecidableEq

/-- Events the Head Tracker emits to subscribers; `HeadConfirmed` events are
modelled separately (`onHeadEvent`), this is the reorg stream. -/
inductive TrackerEvent where
  | Reorg (commonAncestor : ℕ) (discardedHashes : List ℕ) (newHashes : List ℕ)
deriving DecidableEq

/-- Modelled from the spec: split the chain view at the first head whose
hash is `ph`, returning the newer heads before it, the matching head (the
common ancestor), and the older heads after it. -/
def splitAtHash (ph : ℕ) : List Head → Option (List Head × Head × List Head)
  | [] => none
  | a :: rest =>
      if a.hash = ph then some ([], a, rest)
      else
        match splitAtHash ph rest with
        | some (pre, anc, post) => some (a :: pre, anc, post)
        | none => none

/-- Modelled from the spec (section 4.1): walk backward from the new head,
fetching ancestors from the Chain Client Adapter as needed, until a common
ancestor with the existing view is found. Returns the new branch (newest
first), the discarded branch, the common ancestor, and the kept older heads.
Fuel bounds the walk; exhaustion or a failed fetch means the adapter could
not supply an ancestor. -/
def walkBack (fetch : ℕ → Option Head) (chain : List Head) :
    ℕ → Head → List Head → Option (List Head × List Head × Head × List Head)
  | 0, _, _ => none
  | fuel + 1, cur, acc =>
      match splitAtHash cur.parentHash chain with
      | some (pre, anc, post) => some (acc ++ [cur], pre, anc, post)
      | none =>
          match fetch cur.parentHash with
          | some parent => walkBack fetch chain fuel parent (acc ++ [cur])
          | none => none

/-- Modelled from the spec: `onNewHead` of the Head Tracker (spec section
4.1), whose source is not in the sampled tree. A head extending the current
top is appended; otherwise reorg reconciliation walks back to a common
ancestor, discards the superseded branch and replaces it with the new one,
emitting a single `Reorg` event. The view is depth-limited; when the adapter
cannot supply a needed ancestor the view does not advance. -/
def onNewHead (fetch : ℕ → Option Head) (depthLimit : ℕ) :
    List Head → Head → List Head × List TrackerEvent
  | [], head => ([head], [])
  | top :: rest, head =>
      if head.parentHash = top.hash then
        ((head :: top :: rest).take depthLimit, [])
      else
        match walkBack fetch (top :: rest) (depthLimit + 1) head [] with
        | none => (top :: rest, [])
        | some (branch, discarded, anc, kept) =>
            ((branch ++ anc :: kept).take depthLimit,
             [TrackerEvent.Reorg anc.hash (discarded.map Head.hash)
               (branch.map Head.hash)])

/-- The HeadChainView invariant (spec section 3): the view is a single
linked chain, each entry's parentHash equal to the hash of the entry after
it. -/
def hashLinked (chain : List Head) : Prop :=
  chain.Chain' (fun a b => a.parentHash = b.hash)

/-- A head consistent with the chain numbering `num` (hash to block number):
its number is the number of its hash, one more than the number of its
parent's hash. -/
def goodHead (num : ℕ → ℕ) (h : Head) : Prop :=
  h.number = num h.hash ∧ h.number = num h.parentHash + 1

/-- The Chain Client Adapter returns, for a hash, a head with that hash,
consistent with the chain numbering. -/
def goodFetch (num : ℕ → ℕ) (fetch : ℕ → Option Head) : Prop :=
  ∀ ph h, fetch ph = some h → h.hash = ph ∧ goodHead num h

instance (num : ℕ → ℕ) (h : Head) : Decidable (goodHead num h) :=
  inferInstanceAs (Decidable (h.number = num h.hash ∧
    h.number = num h.parentHash + 1))

/-! ## Theorems -/

/-! ### Trigger-function semantics -/

/-- Rounding an integer changes nothing. -/
theorem roundHalfAway_intCast (k : ℤ) : roundHalfAway (k : ℚ) = k := by
  unfold roundHalfAway
  have hhalf : ⌊(1 : ℚ) / 2⌋ = 0 := by norm_num
  split
  · rw [← Int.cast_neg, Int.floor_int_add, hhalf, add_zero, neg_neg]
  · rw [Int.floor_int_add, hhalf, add_zero]

/-- C7: for every threshold `t` and decimals `current`, `new`, the
absoluteThreshold triggering returns true iff the absolute deviation is at
least `t`, returns no error, and is symmetric in its two value arguments. -/
theorem c7_absoluteThreshold (t current new : ℚ) :
    ((absoluteTriggering t current new).1 = true ↔ t ≤ |current - new|) ∧
    (absoluteTriggering t current new).2 = none ∧
    absoluteTriggering t current new = absoluteTriggering t new current := by
  refine ⟨?_, rfl, ?_⟩
  · unfold absoluteTriggering
    simp [not_lt]
  · unfold absoluteTriggering
    rw [abs_sub_comm]

/-- C8: the relativeThreshold triggering is total at `current = 0`: the
division branch is guarded away and the result is exactly whether `new` is
nonzero, for every threshold, with no error. -/
theorem c8_relative_zero_current (t new : ℚ) :
    ((relativeTriggering t 0 new).1 = true ↔ new ≠ 0) ∧
    (relativeTriggering t 0 new).2 = none := by
  unfold relativeTriggering
  simp

/-- C10: `searchQuery` returns the value of the `search` query parameter
when it is present and non-empty, and `undefined` (`none`) both when the
parameter is absent and when its value is the empty string. -/
theorem c10_searchQuery (location : Location) (v : String) :
    (searchParamsGet location.searchParams ("search") = some v → v ≠ "" →
      searchQuery location = some v) ∧
    (searchParamsGet location.searchParams ("search") = none →
      searchQuery location = none) ∧
    (searchParamsGet location.searchParams ("search") = some "" →
      searchQuery location = none) := by
  refine ⟨fun hp hv => ?_, fun hp => ?_, fun hp => ?_⟩
  · unfold searchQuery
    rw [hp]
    simp [hv]
  · unfold searchQuery
    rw [hp]
  · unfold searchQuery
    rw [hp]
    simp

/-- C5: the registry holds exactly the names relativeThreshold and
absoluteThreshold, and `makeTriggerFn` on any other name yields an error and
no trigger function (as the Go intends; the function itself is malformed,
see `makeTriggerFn`). -/
theorem c5_registry (name : String) (params : Param)
    (h : name ∉ ["relativeThreshold", "absoluteThreshold"]) :
    triggerFnFactories.map Prod.fst =
      ["relativeThreshold", "absoluteThreshold"] ∧
    ∃ msg, makeTriggerFn name params = Except.error msg := by
  refine ⟨rfl, "trigger function " ++ name ++ " uknown", ?_⟩
  have h1 : name ≠ "relativeThreshold" ∧ name ≠ "absoluteThreshold" := by
    simpa [not_or] using h
  unfold makeTriggerFn triggerFnFactories
  simp [h1.1.symm, h1.2.symm]

/-- C5 witness: the registry contents and the error on an unknown name. -/
theorem c5_registry_witness :
    triggerFnFactories.map Prod.fst =
      ["relativeThreshold", "absoluteThreshold"] ∧
    ∃ msg, makeTriggerFn ("noSuchFn") Param.other = Except.error msg :=
  c5_registry ("noSuchFn") Param.other (by decide)

/-- C6 counterexample: with threshold 0.1, current = 10^18 and
new = 900000000000000001 the exact relative deviation is
0.099999999999999999 < 0.1, yet `Triggering` returns true because
shopspring `Div` rounds the quotient up to 0.1 at its 16-decimal-place
division precision. -/
theorem c6_counterexample :
    (relativeTriggering (1 / 10) (10 ^ 18) (9 * 10 ^ 17 + 1)).1 = true ∧
    ¬ ((1 : ℚ) / 10 ≤
        |(10 ^ 18 : ℚ) - (9 * 10 ^ 17 + 1)| / |(10 ^ 18 : ℚ)|) := by
  have h1 : ((10 : ℚ) ^ 18 - (9 * 10 ^ 17 + 1)) / (10 ^ 18) *
      10 ^ divisionPrecision = 99999999999999999 / 100 := by
    norm_num [divisionPrecision]
  have h2 : roundHalfAway (99999999999999999 / 100) = 10 ^ 15 := by
    unfold roundHalfAway
    rw [if_neg (by norm_num)]
    rw [Int.floor_eq_iff]
    norm_num
  have h3 : decimalDiv ((10 : ℚ) ^ 18 - (9 * 10 ^ 17 + 1)) (10 ^ 18) =
      1 / 10 := by
    unfold decimalDiv
    rw [h1, h2]
    norm_num [divisionPrecision]
  constructor
  · unfold relativeTriggering
    rw [if_pos (by norm_num)]
    simp only [h3]
    norm_num [abs_of_pos]
  · norm_num

/-- C6 (amended): for `current ≠ 0` the relativeThreshold triggering
returns no error and returns true iff the 16-decimal-place rounding of the
quotient (current - new) / current (shopspring `Div`) is at least `t` in
absolute value; whenever that quotient is exactly representable in 16
decimal places this coincides with the claimed
|current - new| / |current| ≥ t. -/
theorem c6_relativeThreshold (t current new : ℚ) (hc : current ≠ 0) :
    ((relativeTriggering t current new).1 = true ↔
      t ≤ |decimalDiv (current - new) current|) ∧
    (relativeTriggering t current new).2 = none ∧
    ((∃ k : ℤ, (current - new) / current * 10 ^ divisionPrecision = (k : ℚ)) →
      ((relativeTriggering t current new).1 = true ↔
        t ≤ |current - new| / |current|)) := by
  have h1 : relativeTriggering t current new =
      (!decide (|decimalDiv (current - new) current| < t), none) := by
    unfold relativeTriggering
    rw [if_pos hc]
  refine ⟨?_, ?_, ?_⟩
  · rw [h1]
    simp [not_lt]
  · rw [h1]
  · rintro ⟨k, hk⟩
    have hr : roundHalfAway ((current - new) / current *
        10 ^ divisionPrecision) = k := by
      rw [hk, roundHalfAway_intCast]
    have hdiv : decimalDiv (current - new) current =
        (current - new) / current := by
      unfold decimalDiv
      rw [hr, ← hk, mul_div_cancel_right₀]
      positivity
    rw [h1, hdiv]
    simp [not_lt, abs_div]

/-- C6 witness: the amended statement at threshold 1/2, current 2, new 1. -/
theorem c6_relativeThreshold_witness :
    ((relativeTriggering (1 / 2) 2 1).1 = true ↔
      (1 : ℚ) / 2 ≤ |decimalDiv (2 - 1) 2|) ∧
    (relativeTriggering (1 / 2) 2 1).2 = none ∧
    ((∃ k : ℤ, ((2 : ℚ) - 1) / 2 * 10 ^ divisionPrecision = (k : ℚ)) →
      ((relativeTriggering (1 / 2) 2 1).1 = true ↔
        (1 : ℚ) / 2 ≤ |(2 : ℚ) - 1| / |(2 : ℚ)|)) :=
  c6_relativeThreshold (1 / 2) 2 1 (by norm_num)

/-! ### Go-slice frame property of `TriggerFns.Scan` -/

/-- Writing at an index past a prefix leaves the prefix unchanged. -/
theorem take_set_of_le {α : Type} (l : List α) (i n : ℕ) (x : α)
    (h : n ≤ i) : (l.set i x).take n = l.take n := by
  induction l generalizing i n with
  | nil => simp
  | cons a t ih =>
    cases i with
    | zero =>
      have hn : n = 0 := Nat.le_zero.mp h
      simp [hn]
    | succ i =>
      cases n with
      | zero => simp
      | succ n =>
        rw [List.set_cons_succ, List.take_succ_cons, List.take_succ_cons,
          ih i n (Nat.succ_le_succ_iff.mp h)]

/-- Go `append` grows the header by one, keeps the header within capacity,
and leaves every prefix the original header can see unchanged. -/
theorem goSlicePush_spec {α : Type} (s : GoSlice α) (x : α)
    (hwf : s.len ≤ s.backing.length) :
    (s.push x).len = s.len + 1 ∧
    (s.push x).len ≤ (s.push x).backing.length ∧
    ∀ n ≤ s.len, (s.push x).backing.take n = s.backing.take n := by
  unfold GoSlice.push
  split
  next hlt =>
    refine ⟨rfl, ?_, ?_⟩
    · simpa [List.length_set] using hlt
    · intro n hn
      exact take_set_of_le _ _ _ _ hn
  next hge =>
    have heq : s.len = s.backing.length := le_antisymm hwf (not_lt.mp hge)
    refine ⟨rfl, ?_, ?_⟩
    · simp [heq, List.take_length]
    · intro n hn
      rw [List.take_append_of_le_length, List.take_take, min_eq_left hn]
      simp only [List.length_take]
      omega

/-- Folding the Scan loop over any entry list never disturbs the part of
the backing array the caller's header can see. -/
theorem foldl_scanStep_take (entries : List (String × Param)) :
    ∀ s : GoSlice (Option TriggerFn), s.len ≤ s.backing.length →
      ∀ n ≤ s.len,
        (entries.foldl scanStep s).backing.take n = s.backing.take n := by
  induction entries with
  | nil => intro s _ n _; rfl
  | cons e t ih =>
    intro s hwf n hn
    rw [List.foldl_cons]
    obtain ⟨hlen, hwf', htake⟩ :=
      goSlicePush_spec s (makeTriggerFn e.1 e.2).toOption hwf
    have hstep : scanStep s e = s.push (makeTriggerFn e.1 e.2).toOption := rfl
    rw [hstep, ih _ hwf' n (by omega), htake n hn]

/-- C9: on a well-formed JSON-object input, `TriggerFns.Scan` returns a nil
error and the caller-visible collection is unchanged: the parsed trigger
functions reach only the method's by-value receiver copy. -/
theorem c9_scan_value_receiver (f : GoSlice (Option TriggerFn))
    (entries : List (String × Param)) (hwf : f.len ≤ f.backing.length) :
    (TriggerFnsScan f (JSONValue.object entries)).1 = none ∧
    (TriggerFnsScan f (JSONValue.object entries)).2.view = f.view := by
  refine ⟨rfl, ?_⟩
  exact foldl_scanStep_take entries f hwf f.len le_rfl

/-- C9 witness: scanning a one-entry object into an empty slice. -/
theorem c9_scan_value_receiver_witness :
    (TriggerFnsScan ⟨[], 0⟩
      (JSONValue.object [("relativeThreshold", Param.float (1 / 2))])).1 =
        none ∧
    (TriggerFnsScan ⟨[], 0⟩
      (JSONValue.object [("relativeThreshold", Param.float (1 / 2))])).2.view =
        GoSlice.view ⟨[], 0⟩ :=
  c9_scan_value_receiver ⟨[], 0⟩ [("relativeThreshold", Param.float (1 / 2))]
    (by simp)

/-! ### Job Run State Machine: idempotent creation -/

/-- When nothing in the first list satisfies the predicate, a find over the
concatenation is a find over the second list. -/
theorem find?_append_none {α : Type} (p : α → Bool) (l₁ l₂ : List α)
    (h : l₁.find? p = none) : (l₁ ++ l₂).find? p = l₂.find? p := by
  induction l₁ with
  | nil => rfl
  | cons a t ih =>
    rw [List.find?_eq_none] at h
    have hpa : ¬ p a = true := h a (by simp)
    rw [List.cons_append, List.find?_cons_of_neg _ hpa]
    apply ih
    rw [List.find?_eq_none]
    intro x hx
    exact h x (List.mem_cons_of_mem _ hx)

/-- C1: calling `createRun` twice with the same idempotency key on a store
not yet holding that key persists exactly one Run with that key, and the
duplicate call returns the already-existing Run and leaves the store
unchanged. -/
theorem c1_createRun_idempotent (store : List Run) (jobId : ℕ)
    (p1 p2 key : String)
    (hfresh : ∀ r ∈ store, r.idempotencyKey ≠ key) :
    createRun (createRun store jobId p1 key).2 jobId p2 key =
      ((createRun store jobId p1 key).1, (createRun store jobId p1 key).2) ∧
    ((createRun (createRun store jobId p1 key).2 jobId p2 key).2.filter
        (fun r => r.idempotencyKey == key)).length = 1 := by
  have hnone : store.find? (fun r => r.idempotencyKey == key) = none := by
    rw [List.find?_eq_none]
    intro r hr
    simpa using hfresh r hr
  have hc1 : createRun store jobId p1 key =
      (⟨store.length, jobId, key, p1, RunStatus.Unstarted⟩,
       store ++ [⟨store.length, jobId, key, p1, RunStatus.Unstarted⟩]) := by
    unfold createRun
    rw [hnone]
  have hfind2 : (store ++
        [(⟨store.length, jobId, key, p1, RunStatus.Unstarted⟩ : Run)]).find?
        (fun r => r.idempotencyKey == key) =
      some ⟨store.length, jobId, key, p1, RunStatus.Unstarted⟩ := by
    rw [find?_append_none _ _ _ hnone]
    exact List.find?_cons_of_pos _ (by simp)
  have hc2 : createRun (store ++
        [(⟨store.length, jobId, key, p1, RunStatus.Unstarted⟩ : Run)]) jobId
        p2 key =
      (⟨store.length, jobId, key, p1, RunStatus.Unstarted⟩,
       store ++ [⟨store.length, jobId, key, p1, RunStatus.Unstarted⟩]) := by
    unfold createRun
    rw [hfind2]
  rw [hc1]
  refine ⟨hc2, ?_⟩
  rw [hc2]
  simp only [List.filter_append]
  have hfs : store.filter (fun r => r.idempotencyKey == key) = [] := by
    rw [List.filter_eq_nil_iff]
    intro x hx
    simpa using hfresh x hx
  rw [hfs]
  simp

/-- C1 witness: two deliveries of the trigger key logX:block100:idx3 into an
empty store leave exactly one Run. -/
theorem c1_createRun_idempotent_witness :
    createRun (createRun [] 7 ("p") ("logX:block100:idx3")).2 7 ("p")
        ("logX:block100:idx3") =
      ((createRun [] 7 ("p") ("logX:block100:idx3")).1,
       (createRun [] 7 ("p") ("logX:block100:idx3")).2) ∧
    ((createRun (createRun [] 7 ("p") ("logX:block100:idx3")).2 7 ("p")
        ("logX:block100:idx3")).2.filter
        (fun r => r.idempotencyKey == "logX:block100:idx3")).length = 1 :=
  c1_createRun_idempotent [] 7 ("p") ("p") ("logX:block100:idx3") (by simp)

/-! ### Transaction Confirmation Coordinator: confirmation depth -/

/-- A transaction no longer `Submitted` is never touched by head events. -/
theorem processHeads_stuck (tx : PendingTransaction)
    (heads : List ObservedHead) (h : tx.status ≠ TxStatus.Submitted) :
    processHeads tx heads = tx := by
  induction heads with
  | nil => rfl
  | cons hd tl ih =>
    unfold processHeads at ih ⊢
    rw [List.foldl_cons]
    have hstep : onHeadEvent tx hd = tx := by
      unfold onHeadEvent
      rw [if_neg]
      intro hcond
      exact h hcond.1
    rw [hstep]
    exact ih

/-- C2: a `Submitted` PendingTransaction with requiredConfirmations = 3
submitted at head number N is `Confirmed` after a sequence of head events
iff the sequence contains a head of number at least N + 3 descending from
the inclusion head — so it becomes Confirmed only at such a head and never
at any earlier point. -/
theorem c2_confirmation_depth (tx : PendingTransaction)
    (heads : List ObservedHead) (hsub : tx.status = TxStatus.Submitted)
    (hrc : tx.requiredConfirmations = 3) :
    (processHeads tx heads).status = TxStatus.Confirmed ↔
      ∃ h ∈ heads, tx.inclusionHash ∈ h.ancestorHashes ∧
        tx.submittedAtNumber + 3 ≤ h.number := by
  induction heads with
  | nil => simp [processHeads, hsub]
  | cons hd tl ih =>
    unfold processHeads at ih ⊢
    rw [List.foldl_cons]
    by_cases hcond : tx.status = TxStatus.Submitted ∧
        tx.inclusionHash ∈ hd.ancestorHashes ∧
        tx.submittedAtNumber + tx.requiredConfirmations ≤ hd.number
    · have hstep : onHeadEvent tx hd =
          ⟨tx.inclusionHash, tx.submittedAtNumber, tx.requiredConfirmations,
            TxStatus.Confirmed⟩ := by
        unfold onHeadEvent
        rw [if_pos hcond]
      rw [hstep]
      have hfix := processHeads_stuck
        ⟨tx.inclusionHash, tx.submittedAtNumber, tx.requiredConfirmations,
          TxStatus.Confirmed⟩ tl (by simp)
      unfold processHeads at hfix
      rw [hfix]
      refine iff_of_true rfl ⟨hd, List.mem_cons_self _ _, hcond.2.1, ?_⟩
      rw [← hrc]
      exact hcond.2.2
    · have hstep : onHeadEvent tx hd = tx := by
        unfold onHeadEvent
        rw [if_neg hcond]
      rw [hstep, ih]
      constructor
      · rintro ⟨h, hm, hx⟩
        exact ⟨h, List.mem_cons_of_mem _ hm, hx⟩
      · rintro ⟨h, hm, hx⟩
        rcases List.mem_cons.mp hm with rfl | hm'
        · refine absurd ⟨hsub, hx.1, ?_⟩ hcond
          rw [hrc]
          exact hx.2
        · exact ⟨h, hm', hx⟩

/-- C2 witness: a transaction submitted at head 10 with the inclusion head
hash 1 is confirmed by the single event for head 13 descending from it. -/
theorem c2_confirmation_depth_witness :
    (processHeads ⟨1, 10, 3, TxStatus.Submitted⟩ [⟨13, [1]⟩]).status =
        TxStatus.Confirmed ↔
      ∃ h ∈ [(⟨13, [1]⟩ : ObservedHead)], 1 ∈ h.ancestorHashes ∧
        10 + 3 ≤ h.number :=
  c2_confirmation_depth ⟨1, 10, 3, TxStatus.Submitted⟩ [⟨13, [1]⟩] rfl rfl

/-! ### Head Tracker: reorg reconciliation and the chain-view invariant -/

/-- A successful split decomposes the chain at a head with the wanted hash. -/
theorem splitAtHash_eq (ph : ℕ) :
    ∀ chain pre anc post, splitAtHash ph chain = some (pre, anc, post) →
      chain = pre ++ anc :: post ∧ anc.hash = ph := by
  intro chain
  induction chain with
  | nil =>
    intro pre anc post h
    simp [splitAtHash] at h
  | cons a rest ih =>
    intro pre anc post h
    simp only [splitAtHash] at h
    by_cases ha : a.hash = ph
    · rw [if_pos ha] at h
      simp only [Option.some.injEq, Prod.mk.injEq] at h
      obtain ⟨h1, h2, h3⟩ := h
      subst h1; subst h2; subst h3
      exact ⟨rfl, ha⟩
    · rw [if_neg ha] at h
      cases hrec : splitAtHash ph rest with
      | none => rw [hrec] at h; simp at h
      | some triple =>
        obtain ⟨pre', anc', post'⟩ := triple
        rw [hrec] at h
        simp only [Option.some.injEq, Prod.mk.injEq] at h
        obtain ⟨h1, h2, h3⟩ := h
        subst h1; subst h2; subst h3
        obtain ⟨hc, hh⟩ := ih pre' _ post' hrec
        constructor
        · rw [List.cons_append, ← hc]
        · exact hh

/-- Appending the fetched parent keeps the walked branch hash-linked. -/
theorem hashLinked_append_one (l : List Head) (cur parent : Head)
    (hl : hashLinked (l ++ [cur])) (hp : cur.parentHash = parent.hash) :
    hashLinked ((l ++ [cur]) ++ [parent]) := by
  unfold hashLinked at hl ⊢
  apply List.Chain'.append hl (List.chain'_singleton _)
  intro x hx y hy
  rw [List.getLast?_concat] at hx
  rw [List.head?_cons] at hy
  simp only [Option.mem_def, Option.some.injEq] at hx hy
  cases hx
  cases hy
  exact hp

/-- Soundness of the backward walk: on success the existing view splits at
the common ancestor, the collected branch is hash-linked, consists of good
heads, and its oldest element links to the common ancestor. -/
theorem walkBack_sound (num : ℕ → ℕ) (fetch : ℕ → Option Head)
    (chain : List Head) (hfetch : goodFetch num fetch) :
    ∀ fuel cur acc branch discarded anc kept,
      walkBack fetch chain fuel cur acc =
        some (branch, discarded, anc, kept) →
      hashLinked (acc ++ [cur]) →
      (∀ h ∈ acc ++ [cur], goodHead num h) →
      chain = discarded ++ anc :: kept ∧ hashLinked branch ∧
        (∀ h ∈ branch, goodHead num h) ∧
        (∀ x ∈ branch.getLast?, x.parentHash = anc.hash) := by
  intro fuel
  induction fuel with
  | zero =>
    intro cur acc branch discarded anc kept hw
    simp [walkBack] at hw
  | succ fuel ih =>
    intro cur acc branch discarded anc kept hw hlink hgood
    simp only [walkBack] at hw
    cases hsplit : splitAtHash cur.parentHash chain with
    | some triple =>
      obtain ⟨pre, anc', post⟩ := triple
      rw [hsplit] at hw
      simp only [Option.some.injEq, Prod.mk.injEq] at hw
      obtain ⟨hb, hd, ha, hk⟩ := hw
      subst hb; subst hd; subst ha; subst hk
      obtain ⟨hchain, hanc⟩ := splitAtHash_eq _ _ _ _ _ hsplit
      refine ⟨hchain, hlink, hgood, ?_⟩
      intro x hx
      rw [List.getLast?_concat] at hx
      simp only [Option.mem_def, Option.some.injEq] at hx
      rw [← hx, hanc]
    | none =>
      rw [hsplit] at hw
      cases hfe : fetch cur.parentHash with
      | none => rw [hfe] at hw; simp at hw
      | some parent =>
        rw [hfe] at hw
        obtain ⟨hph, hpg⟩ := hfetch _ _ hfe
        refine ih parent (acc ++ [cur]) branch discarded anc kept hw ?_ ?_
        · exact hashLinked_append_one _ _ _ hlink hph.symm
        · intro h hm
          rcases List.mem_append.mp hm with hm' | hm'
          · exact hgood h hm'
          · simp only [List.mem_singleton] at hm'
            rw [hm']
            exact hpg

/-- C3: from the view H3, H2, H1 (each linked to the next), delivering the
competing H2prime whose parent is H1 and then its child H3prime raises
exactly one Reorg event, with common ancestor H1 and discarded hashes H3 and
H2; this holds for every positive depth limit. -/
theorem c3_reorg_event (fetch : ℕ → Option Head) (m : ℕ)
    (H1 H2 H3 H2' H3' : Head)
    (_h2par : H2.parentHash = H1.hash) (_h3par : H3.parentHash = H2.hash)
    (h2'par : H2'.parentHash = H1.hash) (h3'par : H3'.parentHash = H2'.hash)
    (hne13 : H1.hash ≠ H3.hash) (hne12 : H1.hash ≠ H2.hash) :
    (onNewHead fetch (m + 1) [H3, H2, H1] H2').2 =
      [TrackerEvent.Reorg H1.hash [H3.hash, H2.hash] [H2'.hash]] ∧
    (onNewHead fetch (m + 1)
        (onNewHead fetch (m + 1) [H3, H2, H1] H2').1 H3').2 = [] := by
  have hs : splitAtHash H1.hash [H3, H2, H1] = some ([H3, H2], H1, []) := by
    simp only [splitAtHash]
    rw [if_neg (fun he => hne13 he.symm), if_neg (fun he => hne12 he.symm)]
    simp
  have hw : walkBack fetch [H3, H2, H1] (m + 1 + 1) H2' [] =
      some ([H2'], [H3, H2], H1, []) := by
    simp only [walkBack]
    rw [h2'par, hs]
    rfl
  have hnotop : ¬ H2'.parentHash = H3.hash := by
    rw [h2'par]
    exact hne13
  have h1call : onNewHead fetch (m + 1) [H3, H2, H1] H2' =
      (H2' :: List.take m [H1],
       [TrackerEvent.Reorg H1.hash [H3.hash, H2.hash] [H2'.hash]]) := by
    simp only [onNewHead]
    rw [if_neg hnotop, hw]
    simp
  rw [h1call]
  refine ⟨rfl, ?_⟩
  simp only [onNewHead]
  rw [if_pos h3'par]

/-- C3 witness: the scenario at concrete heads, depth limit 10. -/
theorem c3_reorg_event_witness :
    (onNewHead (fun _ => none) 10
        [⟨3, 2, 3, 0⟩, ⟨2, 1, 2, 0⟩, ⟨1, 0, 1, 0⟩] ⟨12, 1, 2, 0⟩).2 =
      [TrackerEvent.Reorg 1 [3, 2] [12]] ∧
    (onNewHead (fun _ => none) 10
        (onNewHead (fun _ => none) 10
          [⟨3, 2, 3, 0⟩, ⟨2, 1, 2, 0⟩, ⟨1, 0, 1, 0⟩] ⟨12, 1, 2, 0⟩).1
        ⟨13, 12, 3, 0⟩).2 = [] :=
  c3_reorg_event (fun _ => none) 9 ⟨1, 0, 1, 0⟩ ⟨2, 1, 2, 0⟩ ⟨3, 2, 3, 0⟩
    ⟨12, 1, 2, 0⟩ ⟨13, 12, 3, 0⟩ rfl rfl rfl rfl (by decide) (by decide)

/-- C4: if the view is hash-linked and every head in sight is consistent
with the chain numbering, then after any `onNewHead` the view is again a
single hash-linked chain of consistent heads, and any two held heads
related by parentHash-to-hash differ by exactly one in number. -/
theorem c4_tracker_invariant (num : ℕ → ℕ) (fetch : ℕ → Option Head)
    (depthLimit : ℕ) (chain : List Head) (head : Head)
    (hlink : hashLinked chain) (hgood : ∀ h ∈ chain, goodHead num h)
    (hhead : goodHead num head) (hfetch : goodFetch num fetch) :
    hashLinked (onNewHead fetch depthLimit chain head).1 ∧
    (∀ h ∈ (onNewHead fetch depthLimit chain head).1, goodHead num h) ∧
    ∀ A B, A ∈ (onNewHead fetch depthLimit chain head).1 →
      B ∈ (onNewHead fetch depthLimit chain head).1 →
      A.parentHash = B.hash → A.number = B.number + 1 := by
  have main : hashLinked (onNewHead fetch depthLimit chain head).1 ∧
      ∀ h ∈ (onNewHead fetch depthLimit chain head).1, goodHead num h := by
    cases chain with
    | nil =>
      constructor
      · exact List.chain'_singleton _
      · intro h hm
        simp only [onNewHead, List.mem_singleton] at hm
        rw [hm]
        exact hhead
    | cons top rest =>
      simp only [onNewHead]
      by_cases htop : head.parentHash = top.hash
      · rw [if_pos htop]
        constructor
        · unfold hashLinked at hlink ⊢
          apply List.Chain'.take
          exact List.chain'_cons.mpr ⟨htop, hlink⟩
        · intro h hm
          have hm' := List.take_subset _ _ hm
          rcases List.mem_cons.mp hm' with rfl | hm''
          · exact hhead
          · exact hgood h hm''
      · rw [if_neg htop]
        cases hw : walkBack fetch (top :: rest) (depthLimit + 1) head [] with
        | none => exact ⟨hlink, hgood⟩
        | some quad =>
          obtain ⟨branch, discarded, anc, kept⟩ := quad
          obtain ⟨hchain, hbl, hbg, hseam⟩ :=
            walkBack_sound num fetch (top :: rest) hfetch (depthLimit + 1)
              head [] branch discarded anc kept hw
              (by rw [List.nil_append]; exact List.chain'_singleton _)
              (by
                intro h hm
                rw [List.nil_append, List.mem_singleton] at hm
                rw [hm]
                exact hhead)
          constructor
          · unfold hashLinked at hlink hbl ⊢
            apply List.Chain'.take
            apply List.Chain'.append hbl
            · exact List.Chain'.suffix hlink ⟨discarded, hchain.symm⟩
            · intro x hx y hy
              simp only [List.head?_cons, Option.mem_def,
                Option.some.injEq] at hy
              rw [← hy]
              exact hseam x hx
          · intro h hm
            have hm' := List.take_subset _ _ hm
            rcases List.mem_append.mp hm' with hb | hk
            · exact hbg h hb
            · apply hgood
              rw [hchain]
              exact List.mem_append_right _ hk
  refine ⟨main.1, main.2, ?_⟩
  intro A B hA hB hAB
  obtain ⟨_, hA2⟩ := main.2 A hA
  obtain ⟨hB1, _⟩ := main.2 B hB
  rw [hA2, hAB, hB1]

/-- C4 witness: extending a linked two-head view by its child, under the
identity chain numbering. -/
theorem c4_tracker_invariant_witness :
    hashLinked (onNewHead (fun _ => none) 10
      [⟨2, 1, 2, 0⟩, ⟨1, 0, 1, 0⟩] ⟨3, 2, 3, 0⟩).1 ∧
    (∀ h ∈ (onNewHead (fun _ => none) 10
      [⟨2, 1, 2, 0⟩, ⟨1, 0, 1, 0⟩] ⟨3, 2, 3, 0⟩).1,
        goodHead (fun n => n) h) ∧
    ∀ A B, A ∈ (onNewHead (fun _ => none) 10
        [⟨2, 1, 2, 0⟩, ⟨1, 0, 1, 0⟩] ⟨3, 2, 3, 0⟩).1 →
      B ∈ (onNewHead (fun _ => none) 10
        [⟨2, 1, 2, 0⟩, ⟨1, 0, 1, 0⟩] ⟨3, 2, 3, 0⟩).1 →
      A.parentHash = B.hash → A.number = B.number + 1 :=
  c4_tracker_invariant (fun n => n) (fun _ => none) 10
    [⟨2, 1, 2, 0⟩, ⟨1, 0, 1, 0⟩] ⟨3, 2, 3, 0⟩
    (by simp [hashLinked, List.chain'_cons]) (by decide)
    (by decide) (fun ph h hc => Option.noConfusion hc)

/-- C10 witness: the three behaviours at concrete locations. -/
theorem c10_searchQuery_witness :
    searchQuery ⟨[("search", "abc")]⟩ = some ("abc") ∧
    searchQuery ⟨[]⟩ = none ∧
    searchQuery ⟨[("search", "")]⟩ = none :=
  ⟨(c10_searchQuery ⟨[("search", "abc")]⟩ "abc").1 (by rfl) (by decide),
   (c10_searchQuery ⟨[]⟩ "").2.1 (by rfl),
   (c10_searchQuery ⟨[("search", "")]⟩ "").2.2 (by rfl)⟩

end Chainlink
